import Mathlib

/-!
A verification development for the collidoscope collision-detection engine
(`Lib/collidoscope/__init__.py`).

The geometric collaborators (curve intersection `s1.intersections(s2)`,
flattened intersection areas `path1.intersection(path2, flat=True)`,
bounding boxes) are external primitives for the engine; they are modelled
here as explicit data (bounding boxes carried on segments and paths) and
function parameters (`isect` for exact segment/segment intersection,
`interAreas` for the list of flattened intersection-region areas).
Everything downstream of those primitives — the overlap detector
`find_overlaps`, the rule engine `has_collisions`, the rule dictionary
handling — is translated directly from the Python source.
-/

namespace Collidoscope

/-- A point, as produced by the intersection primitive. -/
abbrev Point := Int × Int

/-- A bounding box (`beziers.boundingbox.BoundingBox`), an external
geometry primitive; modelled as a closed axis-aligned rectangle. -/
structure BBox where
  left : Int
  right : Int
  bottom : Int
  top : Int
deriving DecidableEq, Repr

/-- `BoundingBox.overlaps`: closed-rectangle intersection test
(external geometry primitive). -/
def BBox.overlaps (a b : BBox) : Bool :=
  decide (a.left ≤ b.right) && decide (b.left ≤ a.right) &&
    decide (a.bottom ≤ b.top) && decide (b.bottom ≤ a.top)

/-- One curve segment of a path, as produced by `path.asSegments()`.
`sid` is the segment's identity; `bbox` its bounding box. The actual
curve data lives behind the external `isect` primitive. -/
structure Seg where
  sid : Nat
  bbox : BBox
deriving DecidableEq, Repr

/-- A closed outline path of a glyph. `pid` is the path's object identity
(Python dictionaries key paths by identity); `hasAnchor` is the flag set
by `get_cached_glyph`; `area` is the external `path.area` primitive's
value; `segs` is `path.asSegments()`. -/
structure Path where
  pid : Nat
  hasAnchor : Bool
  area : Rat
  bbox : BBox
  segs : List Seg
deriving DecidableEq, Repr

/-- The `Collision` named tuple from the source. -/
structure Collision where
  glyph1 : String
  glyph2 : String
  path1 : Path
  path2 : Path
  point : Point
deriving DecidableEq, Repr

/-- A positioned glyph dictionary as built by `get_positioned_glyph` /
`get_glyphs`: name, category, shaping cluster id, paths and overall
bounding box. -/
structure Glyph where
  name : String
  category : String
  cluster : Nat
  paths : List Path
  glyphbounds : BBox
deriving DecidableEq, Repr

/-- `glyphs[i]` (loops in the source only index within bounds). -/
def glyphAt (glyphs : List Glyph) (i : Nat) : Glyph :=
  glyphs.getD i ⟨"", "", 0, [], ⟨0, 0, 0, 0⟩⟩

/-- A value in the rules dictionary: the recognised rules take booleans,
except `area` which takes a number. -/
inductive RuleValue where
  | b (v : Bool)
  | f (v : Rat)
deriving DecidableEq, Repr

/-- The rules dictionary, modelled as an association list (first match
wins, as for Python dict keys, which are unique anyway). -/
abbrev Rules := List (String × RuleValue)

/-- Python `key in rules` / `rules[key]` lookup. -/
def rget (rules : Rules) (k : String) : Option RuleValue :=
  (rules.find? (fun kv => kv.1 = k)).map (fun kv => kv.2)

/-- Python `key in rules`. -/
def rcontains (rules : Rules) (k : String) : Bool :=
  (rget rules k).isSome

/-- Python truthiness of a rule value (`0.0` and `False` are falsy). -/
def truthy : RuleValue → Bool
  | .b v => v
  | .f q => decide (q ≠ 0)

/-- Numeric value of a rule entry (Python numbers; `True`/`False`
coerce to 1/0). -/
def toRat : RuleValue → Rat
  | .b true => 1
  | .b false => 0
  | .f q => q

/-- `_KNOWN_RULES` from the source. -/
def _KNOWN_RULES : List String :=
  ["faraway", "marks", "adjacent_clusters", "cursive", "area"]

/-- `Collidoscope.get_rules`: the sub-dictionary of the rules whose keys
are known. -/
def get_rules (rules : Rules) : Rules :=
  rules.filter (fun kv => _KNOWN_RULES.contains kv.1)

/-- Every access `has_collisions` makes to the rules dictionary:
memberships of the five rule names, the truthiness of `rules["cursive"]`,
the numeric value of `rules["area"]`, and `rules.get("bases", True)`. -/
structure EngineConfig where
  faraway : Bool
  adjacent_clusters : Bool
  marks : Bool
  cursiveIn : Bool
  cursiveOn : Bool
  areaIn : Bool
  areaVal : Rat
  bases : Bool
deriving DecidableEq, Repr

/-- Reads the rule-dictionary entries the engine consults. -/
def read_rules (rules : Rules) : EngineConfig where
  faraway := rcontains rules "faraway"
  adjacent_clusters := rcontains rules "adjacent_clusters"
  marks := rcontains rules "marks"
  cursiveIn := rcontains rules "cursive"
  cursiveOn :=
    match rget rules "cursive" with
    | some v => truthy v
    | none => false
  areaIn := rcontains rules "area"
  areaVal := toRat ((rget rules "area").getD (RuleValue.f 0))
  bases := truthy ((rget rules "bases").getD (RuleValue.b true))

/-! ## The overlap detector (`find_overlaps`) -/

/-- `bbox_intersections` (`beziers.utils.linesweep`): the pairs from the
two lists whose bounding boxes intersect, in traversal order. -/
def bbox_intersections {α β : Type} (fa : α → BBox) (fb : β → BBox)
    (ls : List α) (rs : List β) : List (α × β) :=
  ls.flatMap (fun a => (rs.filter (fun b => (fa a).overlaps (fb b))).map (fun b => (a, b)))

/-- Python dict assignment `d[k] = v`: overwrite in place, or append a
fresh key at the end (insertion order is preserved). -/
def dictInsert {κ ν : Type} [DecidableEq κ] (k : κ) (v : ν) :
    List (κ × ν) → List (κ × ν)
  | [] => [(k, v)]
  | (k', v') :: rest =>
    if k' = k then (k, v) :: rest else (k', v') :: dictInsert k v rest

/-- The body of the inner loop of `find_overlaps`: for one overlapping
segment pair, if the exact intersection is non-empty, store a `Collision`
for the path pair `pp` carrying the first intersection point. -/
def segPairStep (isect : Seg → Seg → List Point) (g1 g2 : Glyph) (pp : Path × Path)
    (d : List ((Path × Path) × Collision)) (sp : Seg × Seg) :
    List ((Path × Path) × Collision) :=
  match isect sp.1 sp.2 with
  | [] => d
  | pt :: _ => dictInsert pp ⟨g1.name, g2.name, pp.1, pp.2, pt⟩ d

/-- The body of the outer loop of `find_overlaps`: process every
overlapping segment pair of one overlapping path pair. -/
def pathPairStep (isect : Seg → Seg → List Point) (g1 g2 : Glyph)
    (d : List ((Path × Path) × Collision)) (pp : Path × Path) :
    List ((Path × Path) × Collision) :=
  (bbox_intersections Seg.bbox Seg.bbox pp.1.segs pp.2.segs).foldl
    (segPairStep isect g1 g2 pp) d

/-- `Collidoscope.find_overlaps`, translated from the source: glyph-bounds
reject, path-pair sweep, segment-pair sweep, exact intersection via the
external `isect` primitive, results keyed per path pair in a dict. -/
def find_overlaps (isect : Seg → Seg → List Point) (g1 g2 : Glyph) : List Collision :=
  if ¬ (g1.glyphbounds.overlaps g2.glyphbounds) then []
  else
    let overlappingPathBounds :=
      bbox_intersections Path.bbox Path.bbox g1.paths g2.paths
    if overlappingPathBounds.isEmpty then []
    else
      (overlappingPathBounds.foldl (pathPairStep isect g1 g2) []).map (fun kv => kv.2)

/-! ## The rule engine (`has_collisions`) -/

/-- `_get_sequential_cluster_ids` helper: running renumbering. -/
def sciAux : Option Nat → Nat → List Glyph → List Nat
  | _, _, [] => []
  | cur, sci, g :: rest =>
    if cur = some g.cluster then sci :: sciAux cur sci rest
    else (sci + 1) :: sciAux (some g.cluster) (sci + 1) rest

/-- `_get_sequential_cluster_ids` from the source: renumber the shaping
cluster ids consecutively, bumping whenever the cluster changes. -/
def _get_sequential_cluster_ids (glyphs : List Glyph) : List Nat :=
  sciAux none 0 glyphs

/-- The `while` loop of the faraway rule: starting at index `k`, skip the
consecutive run of glyphs of category `mark`. -/
def skipMarks (glyphs : List Glyph) (k : Nat) : Nat :=
  k + ((glyphs.drop k).takeWhile (fun g => g.category = "mark")).length

/-- `nonAdjacent` for a first glyph at index `i`: one past the glyph
itself, and for a base additionally past its attached marks and the very
next glyph. -/
def nonAdjacentIndex (glyphs : List Glyph) (i : Nat) : Nat :=
  if (glyphAt glyphs i).category = "base" then skipMarks glyphs (i + 1) + 1
  else i + 1

/-- The pairs `(firstIx, secondIx)` scanned by the faraway loop. -/
def farawayPairs (glyphs : List Glyph) : List (Nat × Nat) :=
  (List.range glyphs.length).flatMap (fun i =>
    (List.range' (nonAdjacentIndex glyphs i)
      (glyphs.length - nonAdjacentIndex glyphs i)).map (fun j => (i, j)))

/-- The pairs `i < j` scanned by the adjacent_clusters loop. -/
def allPairs (n : Nat) : List (Nat × Nat) :=
  (List.range (n - 1)).flatMap (fun i =>
    (List.range' (i + 1) (n - (i + 1))).map (fun j => (i, j)))

/-- The pairs scanned by the marks loop: note the first index runs over
`range(1, len(glyphs) - 1)`, never 0. -/
def marksPairs (n : Nat) : List (Nat × Nat) :=
  (List.range' 1 (n - 1 - 1)).flatMap (fun i =>
    (List.range' (i + 1) (n - (i + 1))).map (fun j => (i, j)))

/-- The adjacent pairs `(i, i+1)` scanned by the cursive/area loop. -/
def adjacentOnePairs (n : Nat) : List (Nat × Nat) :=
  (List.range (n - 1)).map (fun i => (i, i + 1))

/-- Outcome of one iteration of a rule loop for one glyph pair:
either the pair is skipped without invoking `find_overlaps`, or it is
tested, producing the (possibly filtered) overlap list. -/
inductive StepRes where
  | skip
  | tested (overlaps : List Collision)

/-- Run one rule loop: scan the pairs in order; a `tested` step with a
non-empty result returns it at once (the source's `return overlaps`).
Also records the pairs on which `find_overlaps` was invoked. -/
def scanBlock (step : Nat × Nat → StepRes) : List (Nat × Nat) → List Collision × List (Nat × Nat)
  | [] => ([], [])
  | p :: ps =>
    match step p with
    | .skip => scanBlock step ps
    | .tested r =>
      if r.isEmpty then
        let rest := scanBlock step ps
        (rest.1, p :: rest.2)
      else (r, [p])

/-- One iteration of the faraway loop: the base/base pair is skipped when
`bases` is falsy; otherwise the pair is tested and any overlap returned. -/
def farawayStep (isect : Seg → Seg → List Point) (cfg : EngineConfig)
    (glyphs : List Glyph) (p : Nat × Nat) : StepRes :=
  let first := glyphAt glyphs p.1
  let second := glyphAt glyphs p.2
  if first.category = "base" ∧ second.category = "base" ∧ ¬cfg.bases then .skip
  else .tested (find_overlaps isect first second)

/-- The faraway loop. -/
def farawayBlock (isect : Seg → Seg → List Point) (cfg : EngineConfig)
    (glyphs : List Glyph) : List Collision × List (Nat × Nat) :=
  scanBlock (farawayStep isect cfg glyphs) (farawayPairs glyphs)

/-- One iteration of the adjacent_clusters loop: pairs whose sequential
cluster ids differ by at most one are tested (note the source invokes
`find_overlaps` before the base/base `bases` check, which merely discards
the result). -/
def adjacentClustersStep (isect : Seg → Seg → List Point) (cfg : EngineConfig)
    (glyphs : List Glyph) (scis : List Nat) (p : Nat × Nat) : StepRes :=
  let d : Int := (scis.getD p.1 0 : Int) - (scis.getD p.2 0 : Int)
  if d = -1 ∨ d = 0 ∨ d = 1 then
    let overlaps := find_overlaps isect (glyphAt glyphs p.1) (glyphAt glyphs p.2)
    .tested
      (if (glyphAt glyphs p.1).category = "base" ∧
          (glyphAt glyphs p.2).category = "base" ∧ ¬cfg.bases then []
       else overlaps)
  else .skip

/-- The adjacent_clusters loop. -/
def adjacentClustersBlock (isect : Seg → Seg → List Point) (cfg : EngineConfig)
    (glyphs : List Glyph) : List Collision × List (Nat × Nat) :=
  scanBlock (adjacentClustersStep isect cfg glyphs (_get_sequential_cluster_ids glyphs))
    (allPairs glyphs.length)

/-- One iteration of the marks loop: pairs of two marks are tested. -/
def marksStep (isect : Seg → Seg → List Point) (glyphs : List Glyph)
    (p : Nat × Nat) : StepRes :=
  if (glyphAt glyphs p.1).category = "mark" ∧ (glyphAt glyphs p.2).category = "mark" then
    .tested (find_overlaps isect (glyphAt glyphs p.1) (glyphAt glyphs p.2))
  else .skip

/-- The marks loop. -/
def marksBlock (isect : Seg → Seg → List Point) (glyphs : List Glyph) :
    List Collision × List (Nat × Nat) :=
  scanBlock (marksStep isect glyphs) (marksPairs glyphs.length)

/-- The cursive reportability filter from the source: keep a collision
when exactly one of its two paths carries an anchor. -/
def cursive_filter (overlaps : List Collision) : List Collision :=
  overlaps.filter (fun x =>
    (x.path1.hasAnchor ∧ ¬x.path2.hasAnchor) ∨ (x.path2.hasAnchor ∧ ¬x.path1.hasAnchor))

/-- The area reportability filter from the source: for each raw collision,
append it once per flattened intersection region whose area exceeds the
threshold times either path's own area. -/
def area_filter (interAreas : Path → Path → List Rat) (t : Rat)
    (overlaps : List Collision) : List Collision :=
  overlaps.flatMap (fun i1 =>
    (interAreas i1.path1 i1.path2).filterMap (fun ia =>
      if ia > i1.path1.area * t ∨ ia > i1.path2.area * t then some i1 else none))

/-- One iteration of the cursive/area loop over an adjacent pair.
The source computes `secondHasAnchors` from `first["paths"]` (reading the
first glyph a second time); this translation reproduces that. When the
cursive test fires and its filtered result is empty the source
`continue`s, skipping the area test for that index. -/
def cursiveAreaStep (isect : Seg → Seg → List Point)
    (interAreas : Path → Path → List Rat) (cfg : EngineConfig)
    (glyphs : List Glyph) (p : Nat × Nat) : StepRes :=
  let first := glyphAt glyphs p.1
  let second := glyphAt glyphs p.2
  let firstHasAnchors := first.paths.any (fun x => x.hasAnchor)
  let secondHasAnchors := first.paths.any (fun x => x.hasAnchor)
  if cfg.cursiveOn ∧ (firstHasAnchors ∨ secondHasAnchors) then
    .tested (cursive_filter (find_overlaps isect first second))
  else if cfg.areaIn then
    if first.category = "base" ∧ second.category = "base" ∧ ¬cfg.bases then .skip
    else .tested (area_filter interAreas cfg.areaVal (find_overlaps isect first second))
  else .skip

/-- The cursive/area loop. -/
def cursiveAreaBlock (isect : Seg → Seg → List Point)
    (interAreas : Path → Path → List Rat) (cfg : EngineConfig)
    (glyphs : List Glyph) : List Collision × List (Nat × Nat) :=
  scanBlock (cursiveAreaStep isect interAreas cfg glyphs) (adjacentOnePairs glyphs.length)

/-- Step 1 of `has_collisions`: reverse the run for RTL. -/
def orient (direction : String) (glyphs : List Glyph) : List Glyph :=
  if direction = "RTL" then glyphs.reverse else glyphs

/-- The early-return sequencing of the source: if the earlier loop found
collisions, return them at once; otherwise fall through to the later
loops (accumulating the record of tested pairs). -/
def chainBlocks (a b : List Collision × List (Nat × Nat)) :
    List Collision × List (Nat × Nat) :=
  if a.1.isEmpty then (b.1, a.2 ++ b.2) else a

/-- `Collidoscope.has_collisions`, translated from the source, with the
`find_overlaps` invocations additionally recorded (second component):
orient the run, then run the faraway, adjacent_clusters, marks and
cursive/area loops in order, returning the first non-empty (filtered)
overlap list found. -/
def has_collisions_traced (isect : Seg → Seg → List Point)
    (interAreas : Path → Path → List Rat) (rules : Rules)
    (direction : String) (glyphs_in : List Glyph) :
    List Collision × List (Nat × Nat) :=
  let glyphs := orient direction glyphs_in
  let cfg := read_rules rules
  chainBlocks (if cfg.faraway then farawayBlock isect cfg glyphs else ([], []))
    (chainBlocks
      (if cfg.adjacent_clusters then adjacentClustersBlock isect cfg glyphs else ([], []))
      (chainBlocks (if cfg.marks then marksBlock isect glyphs else ([], []))
        (if cfg.cursiveIn || cfg.areaIn then
          cursiveAreaBlock isect interAreas cfg glyphs else ([], []))))

/-- `Collidoscope.has_collisions`: the list of collisions returned. -/
def has_collisions (isect : Seg → Seg → List Point)
    (interAreas : Path → Path → List Rat) (rules : Rules)
    (direction : String) (glyphs_in : List Glyph) : List Collision :=
  (has_collisions_traced isect interAreas rules direction glyphs_in).1

/-- Whether a rule-loop iteration invoked `find_overlaps`. -/
def StepRes.isTested : StepRes → Bool
  | .skip => false
  | .tested _ => true

/-! ## Definitions written from the specification's words, for comparison -/

/-- Modelled from the spec: the "adjacency unit" of the base glyph at
`i` — the base itself, any immediately following mark glyphs attached to
it, and the very next glyph (when one exists). -/
def adjacencyUnit (glyphs : List Glyph) (i : Nat) : List Nat :=
  let attached := ((glyphs.drop (i + 1)).takeWhile (fun g => g.category = "mark")).length
  (i :: List.range' (i + 1) attached) ++
    (if i + 1 + attached < glyphs.length then [i + 1 + attached] else [])

/-- Modelled from the spec: the first intersection point found in segment
traversal order for a pair of paths. -/
def first_found_point (isect : Seg → Seg → List Point) (p1 p2 : Path) : Option Point :=
  ((bbox_intersections Seg.bbox Seg.bbox p1.segs p2.segs).filterMap
    (fun sp => (isect sp.1 sp.2).head?)).head?

/-- The collision recorded for one segment pair: the first intersection
point of that pair, when it intersects at all. -/
def firstPointColl (isect : Seg → Seg → List Point) (g1 g2 : Glyph)
    (pp : Path × Path) (sp : Seg × Seg) : Option Collision :=
  match isect sp.1 sp.2 with
  | [] => none
  | pt :: _ => some ⟨g1.name, g2.name, pp.1, pp.2, pt⟩

/-- The collision `find_overlaps` ends up recording for one path pair:
one `Collision` per path pair with an intersecting segment pair, carrying
the first intersection point of the *last* intersecting segment pair in
traversal order (each later intersecting segment pair overwrites the
stored point). -/
def lastColl (isect : Seg → Seg → List Point) (g1 g2 : Glyph) (pp : Path × Path)
    (sps : List (Seg × Seg)) : Option Collision :=
  ((sps.filter (fun sp => !(isect sp.1 sp.2).isEmpty)).getLast?).bind
    (firstPointColl isect g1 g2 pp)

/-- `lastColl` over the overlapping segment pairs of a path pair. -/
def collision_of_pair (isect : Seg → Seg → List Point) (g1 g2 : Glyph)
    (pp : Path × Path) : Option Collision :=
  lastColl isect g1 g2 pp (bbox_intersections Seg.bbox Seg.bbox pp.1.segs pp.2.segs)

/-- The declarative description of `find_overlaps` (amended from the
spec's words): for every overlapping path pair, at most one `Collision`,
determined by `collision_of_pair`. -/
def find_overlaps_spec (isect : Seg → Seg → List Point) (g1 g2 : Glyph) : List Collision :=
  if ¬ (g1.glyphbounds.overlaps g2.glyphbounds) then []
  else
    (bbox_intersections Path.bbox Path.bbox g1.paths g2.paths).filterMap
      (collision_of_pair isect g1 g2)

/-- The keys of a dict modelled as an association list. -/
def dkeys {κ ν : Type} (d : List (κ × ν)) : List κ := d.map (fun kv => kv.1)

/-! ## Concrete fixtures (used by counterexamples and witnesses) -/

/-- A bounding box containing every fixture's geometry. -/
def bbAll : BBox := ⟨0, 10, 0, 10⟩

/-- A fixture segment with identity `n`. -/
def mkSeg (n : Nat) : Seg := ⟨n, bbAll⟩

/-- A fixture path. -/
def mkPath (pid : Nat) (anchor : Bool) (sids : List Nat) : Path :=
  ⟨pid, anchor, 10, bbAll, sids.map mkSeg⟩

/-- A fixture glyph. -/
def mkGlyph (name cat : String) (cluster : Nat) (paths : List Path) : Glyph :=
  ⟨name, cat, cluster, paths, bbAll⟩

/-- Intersection-area primitive returning no regions. -/
def iaNone : Path → Path → List Rat := fun _ _ => []

/-- Intersection primitive finding no intersections. -/
def isectNil : Seg → Seg → List Point := fun _ _ => []

/-- C1 fixture: segments 1∩2 and 2∩3 intersect. -/
def isectC1 : Seg → Seg → List Point := fun s t =>
  if (s.sid = 1 ∧ t.sid = 2) ∨ (s.sid = 2 ∧ t.sid = 3) then [(1, 1)] else []

/-- C1 fixture: mark glyph number `i`, with a path on segment `i`. -/
def markC1 (i : Nat) : Glyph := mkGlyph (toString i) "mark" i [mkPath i false [i]]

/-- C1 fixture: a run of four marks in which pairs (1,2) and (2,3) collide. -/
def runC1 : List Glyph := [markC1 0, markC1 1, markC1 2, markC1 3]

/-- C2 fixture: segments 1 and 2 intersect. -/
def isectC2 : Seg → Seg → List Point := fun s t =>
  if s.sid = 1 ∧ t.sid = 2 then [(1, 1)] else []

/-- C2 fixture: base glyph number `i`. -/
def baseC2 (i : Nat) : Glyph := mkGlyph (toString i) "base" i [mkPath i false [i]]

/-- C3 fixture: segments 1 and 2 intersect. -/
def isectC3 : Seg → Seg → List Point := fun s t =>
  if s.sid = 1 ∧ t.sid = 2 then [(1, 1)] else []

/-- C3 fixture: mark glyph number `i`. -/
def markC3 (i : Nat) : Glyph := mkGlyph (toString i) "mark" i [mkPath i false [i]]

/-- C3 fixture: a base with collision-free geometry. -/
def baseC3 : Glyph := mkGlyph "b" "base" 0 [mkPath 9 false [9]]

/-- C4 fixture: segments 1 (glyph A) and 3 (glyph C) intersect. -/
def isectC4 : Seg → Seg → List Point := fun s t =>
  if s.sid = 1 ∧ t.sid = 3 then [(1, 1)] else []

/-- C4 fixture: anchored path of glyph A. -/
def pA4 : Path := mkPath 1 true [1]

/-- C4 fixture: unanchored path of glyph B. -/
def pB4 : Path := mkPath 2 false [2]

/-- C4 fixture: anchored path of glyph C. -/
def pC4 : Path := mkPath 3 true [3]

/-- C4 fixture: anchor-bearing base A. -/
def gA4 : Glyph := mkGlyph "A" "base" 0 [pA4]

/-- C4 fixture: plain base B, standing between A and C. -/
def gB4 : Glyph := mkGlyph "B" "base" 1 [pB4]

/-- C4 fixture: anchor-bearing base C. -/
def gC4 : Glyph := mkGlyph "C" "base" 2 [pC4]

/-- C4 witness fixture: segments 1 and 2 intersect. -/
def isectC4w : Seg → Seg → List Point := fun s t =>
  if s.sid = 1 ∧ t.sid = 2 then [(2, 2)] else []

/-- C4 witness fixture: anchored base. -/
def gAw : Glyph := mkGlyph "Aw" "base" 0 [mkPath 1 true [1]]

/-- C4 witness fixture: unanchored base adjacent to `gAw`. -/
def gBw : Glyph := mkGlyph "Bw" "base" 1 [mkPath 2 false [2]]

/-- C5 fixture: base, mark, base, base. -/
def runC5 : List Glyph :=
  [mkGlyph "b0" "base" 0 [mkPath 0 false [0]],
   mkGlyph "m1" "mark" 0 [mkPath 1 false [1]],
   mkGlyph "b2" "base" 1 [mkPath 2 false [2]],
   mkGlyph "b3" "base" 2 [mkPath 3 false [3]]]

/-- C6 fixture: segments 1 and 2 intersect. -/
def isectC6 : Seg → Seg → List Point := fun s t =>
  if s.sid = 1 ∧ t.sid = 2 then [(1, 1)] else []

/-- C6 fixture: a base in shaping cluster 0. -/
def gC6a : Glyph := mkGlyph "c1" "base" 0 [mkPath 1 false [1]]

/-- C6 fixture: a base in shaping cluster 5 that overlaps `gC6a`. -/
def gC6b : Glyph := mkGlyph "c2" "base" 5 [mkPath 2 false [2]]

/-- C6 witness fixture: clusters 0, 0, 7. -/
def runC6w : List Glyph :=
  [mkGlyph "w0" "base" 0 [mkPath 1 false [1]],
   mkGlyph "w1" "base" 0 [mkPath 2 false [2]],
   mkGlyph "w2" "base" 7 [mkPath 3 false [3]]]

/-- C7 fixture: the two paths of the fixed colliding pair, each of area 1. -/
def pC7a : Path := ⟨1, false, 1, bbAll, [mkSeg 1]⟩

/-- C7 fixture: second path, also of area 1. -/
def pC7b : Path := ⟨2, false, 1, bbAll, [mkSeg 2]⟩

/-- C7 fixture: a raw collision between `pC7a` and `pC7b`. -/
def collC7 : Collision := ⟨"x", "y", pC7a, pC7b, (0, 0)⟩

/-- C7 fixture: one flattened intersection region of area 3. -/
def iaC7 : Path → Path → List Rat := fun _ _ => [3]

/-- C8 fixture: segment pairs (1,3) and (2,4) intersect, at different points. -/
def isectC8 : Seg → Seg → List Point := fun s t =>
  if s.sid = 1 ∧ t.sid = 3 then [(3, 3)]
  else if s.sid = 2 ∧ t.sid = 4 then [(5, 5)] else []

/-- C8 fixture: a path with two segments. -/
def pC8a : Path := mkPath 1 false [1, 2]

/-- C8 fixture: a second path with two segments. -/
def pC8b : Path := mkPath 2 false [3, 4]

/-- C8 fixture: glyph holding `pC8a`. -/
def gC8a : Glyph := mkGlyph "G1" "base" 0 [pC8a]

/-- C8 fixture: glyph holding `pC8b`. -/
def gC8b : Glyph := mkGlyph "G2" "base" 1 [pC8b]

/-! ## Basic lemmas -/

theorem foldl_fixed {α β : Type} (f : β → α → β) (h : ∀ d a, f d a = d) :
    ∀ (l : List α) (d : β), l.foldl f d = d
  | [], _ => rfl
  | a :: l, d => by rw [List.foldl_cons, h]; exact foldl_fixed f h l d

theorem segPairStep_isectNil (g1 g2 : Glyph) (pp : Path × Path)
    (d : List ((Path × Path) × Collision)) (sp : Seg × Seg) :
    segPairStep isectNil g1 g2 pp d sp = d := rfl

theorem pathPairStep_isectNil (g1 g2 : Glyph) (d : List ((Path × Path) × Collision))
    (pp : Path × Path) : pathPairStep isectNil g1 g2 d pp = d :=
  foldl_fixed _ (segPairStep_isectNil g1 g2 pp) _ d

/-- `find_overlaps` with its `let`s expanded (definitional). -/
theorem find_overlaps_eq (isect : Seg → Seg → List Point) (g1 g2 : Glyph) :
    find_overlaps isect g1 g2 =
      if ¬ (g1.glyphbounds.overlaps g2.glyphbounds) then []
      else if (bbox_intersections Path.bbox Path.bbox g1.paths g2.paths).isEmpty then []
      else ((bbox_intersections Path.bbox Path.bbox g1.paths g2.paths).foldl
        (pathPairStep isect g1 g2) []).map (fun kv => kv.2) := rfl

/-- With an intersection primitive that never finds intersections,
`find_overlaps` finds nothing. -/
theorem find_overlaps_isectNil (g1 g2 : Glyph) : find_overlaps isectNil g1 g2 = [] := by
  rw [find_overlaps_eq]
  split
  · rfl
  · split
    · rfl
    · rw [foldl_fixed _ (pathPairStep_isectNil g1 g2) _ []]
      rfl

theorem getD_mem_of_lt {α : Type} {l : List α} {i : Nat} {d : α}
    (h : i < l.length) : l.getD i d ∈ l := by
  induction l generalizing i with
  | nil => simp at h
  | cons a t ih =>
    cases i with
    | zero => simp
    | succ n =>
      rw [List.getD_cons_succ]
      exact List.mem_cons_of_mem _ (ih (by simpa using h))

theorem glyphAt_mem {glyphs : List Glyph} {i : Nat} (h : i < glyphs.length) :
    glyphAt glyphs i ∈ glyphs := getD_mem_of_lt h

/-! ## Lemmas about the pair lists -/

theorem mem_allPairs {n i j : Nat} : (i, j) ∈ allPairs n ↔ i < j ∧ j < n := by
  unfold allPairs
  constructor
  · intro h
    rcases List.mem_flatMap.mp h with ⟨a, ha, hm⟩
    rcases List.mem_map.mp hm with ⟨b, hb, heq⟩
    injection heq with h1 h2
    subst h1; subst h2
    rw [List.mem_range] at ha
    rw [List.mem_range'_1] at hb
    omega
  · rintro ⟨hij, hjn⟩
    refine List.mem_flatMap.mpr ⟨i, List.mem_range.mpr (by omega),
      List.mem_map.mpr ⟨j, List.mem_range'_1.mpr (by omega), rfl⟩⟩

theorem mem_marksPairs {n i j : Nat} :
    (i, j) ∈ marksPairs n ↔ 1 ≤ i ∧ i < j ∧ j < n := by
  unfold marksPairs
  constructor
  · intro h
    rcases List.mem_flatMap.mp h with ⟨a, ha, hm⟩
    rcases List.mem_map.mp hm with ⟨b, hb, heq⟩
    injection heq with h1 h2
    subst h1; subst h2
    rw [List.mem_range'_1] at ha
    rw [List.mem_range'_1] at hb
    omega
  · rintro ⟨h1, hij, hjn⟩
    refine List.mem_flatMap.mpr ⟨i, List.mem_range'_1.mpr (by omega),
      List.mem_map.mpr ⟨j, List.mem_range'_1.mpr (by omega), rfl⟩⟩

theorem mem_farawayPairs {glyphs : List Glyph} {i j : Nat} :
    (i, j) ∈ farawayPairs glyphs ↔
      i < glyphs.length ∧ nonAdjacentIndex glyphs i ≤ j ∧ j < glyphs.length := by
  unfold farawayPairs
  constructor
  · intro h
    rcases List.mem_flatMap.mp h with ⟨a, ha, hm⟩
    rcases List.mem_map.mp hm with ⟨b, hb, heq⟩
    injection heq with h1 h2
    subst h1; subst h2
    rw [List.mem_range] at ha
    rw [List.mem_range'_1] at hb
    omega
  · rintro ⟨h1, h2, h3⟩
    refine List.mem_flatMap.mpr ⟨i, List.mem_range.mpr h1,
      List.mem_map.mpr ⟨j, List.mem_range'_1.mpr (by omega), rfl⟩⟩

theorem mem_adjacentOnePairs {n : Nat} {p : Nat × Nat} :
    p ∈ adjacentOnePairs n ↔ ∃ i, i + 1 < n ∧ p = (i, i + 1) := by
  unfold adjacentOnePairs
  constructor
  · intro h
    rcases List.mem_map.mp h with ⟨a, ha, heq⟩
    rw [List.mem_range] at ha
    exact ⟨a, by omega, heq.symm⟩
  · rintro ⟨a, ha, rfl⟩
    exact List.mem_map.mpr ⟨a, List.mem_range.mpr (by omega), rfl⟩

/-! ## Lemmas about the rule-loop scan -/

theorem scanBlock_fst_cases (step : Nat × Nat → StepRes) (ps : List (Nat × Nat)) :
    (scanBlock step ps).1 = [] ∨
      ∃ p ∈ ps, step p = StepRes.tested (scanBlock step ps).1 ∧
        (scanBlock step ps).1 ≠ [] := by
  induction ps with
  | nil => exact Or.inl rfl
  | cons p ps ih =>
    cases h : step p with
    | skip =>
      simp only [scanBlock, h]
      rcases ih with h1 | ⟨q, hq, hs, hne⟩
      · exact Or.inl h1
      · exact Or.inr ⟨q, List.mem_cons_of_mem _ hq, hs, hne⟩
    | tested r =>
      by_cases he : r.isEmpty
      · simp only [scanBlock, h, he, if_true]
        rcases ih with h1 | ⟨q, hq, hs, hne⟩
        · exact Or.inl h1
        · exact Or.inr ⟨q, List.mem_cons_of_mem _ hq, hs, hne⟩
      · simp only [scanBlock, h, he, if_false]
        exact Or.inr ⟨p, List.mem_cons_self _ _, h,
          fun hr => he (List.isEmpty_iff.mpr hr)⟩

theorem scanBlock_snd_of_all_empty (step : Nat × Nat → StepRes)
    (ps : List (Nat × Nat))
    (h : ∀ p ∈ ps, ∀ r, step p = StepRes.tested r → r = []) :
    (scanBlock step ps).2 = ps.filter (fun p => (step p).isTested) := by
  induction ps with
  | nil => rfl
  | cons p ps ih =>
    have hrest := ih (fun q hq => h q (List.mem_cons_of_mem _ hq))
    cases hs : step p with
    | skip =>
      simp only [scanBlock, hs, List.filter_cons, StepRes.isTested]
      exact hrest
    | tested r =>
      have hr : r = [] := h p (List.mem_cons_self _ _) r hs
      subst hr
      simp only [scanBlock, hs, List.isEmpty_nil, if_true, List.filter_cons,
        StepRes.isTested]
      rw [hrest]
      rfl

theorem chainBlocks_fst_cases (a b : List Collision × List (Nat × Nat)) :
    (chainBlocks a b).1 = a.1 ∨ (chainBlocks a b).1 = b.1 := by
  unfold chainBlocks
  split
  · exact Or.inr rfl
  · exact Or.inl rfl

theorem chainBlocks_fst_of_empty {a : List Collision × List (Nat × Nat)}
    (b : List Collision × List (Nat × Nat)) (h : a.1 = []) :
    (chainBlocks a b).1 = b.1 := by
  unfold chainBlocks
  rw [if_pos (List.isEmpty_iff.mpr h)]

/-! ## What a tested step produces, per rule loop -/

/-- `farawayStep` with its `let`s expanded (definitional). -/
theorem farawayStep_eq (isect : Seg → Seg → List Point) (cfg : EngineConfig)
    (glyphs : List Glyph) (p : Nat × Nat) :
    farawayStep isect cfg glyphs p =
      if (glyphAt glyphs p.1).category = "base" ∧
          (glyphAt glyphs p.2).category = "base" ∧ ¬cfg.bases then StepRes.skip
      else StepRes.tested
        (find_overlaps isect (glyphAt glyphs p.1) (glyphAt glyphs p.2)) := rfl

theorem farawayStep_tested {isect : Seg → Seg → List Point} {cfg : EngineConfig}
    {glyphs : List Glyph} {p : Nat × Nat} {r : List Collision}
    (h : farawayStep isect cfg glyphs p = StepRes.tested r) :
    r = find_overlaps isect (glyphAt glyphs p.1) (glyphAt glyphs p.2) := by
  rw [farawayStep_eq] at h
  split at h
  · exact absurd h (by simp)
  · injection h with h'
    exact h'.symm

/-- `adjacentClustersStep` with its `let`s expanded (definitional). -/
theorem adjacentClustersStep_eq (isect : Seg → Seg → List Point) (cfg : EngineConfig)
    (glyphs : List Glyph) (scis : List Nat) (p : Nat × Nat) :
    adjacentClustersStep isect cfg glyphs scis p =
      if ((scis.getD p.1 0 : Int) - (scis.getD p.2 0 : Int) = -1 ∨
          (scis.getD p.1 0 : Int) - (scis.getD p.2 0 : Int) = 0 ∨
          (scis.getD p.1 0 : Int) - (scis.getD p.2 0 : Int) = 1) then
        StepRes.tested
          (if (glyphAt glyphs p.1).category = "base" ∧
              (glyphAt glyphs p.2).category = "base" ∧ ¬cfg.bases then []
           else find_overlaps isect (glyphAt glyphs p.1) (glyphAt glyphs p.2))
      else StepRes.skip := rfl

theorem adjacentClustersStep_tested {isect : Seg → Seg → List Point}
    {cfg : EngineConfig} {glyphs : List Glyph} {scis : List Nat}
    {p : Nat × Nat} {r : List Collision}
    (h : adjacentClustersStep isect cfg glyphs scis p = StepRes.tested r) :
    r = [] ∨ r = find_overlaps isect (glyphAt glyphs p.1) (glyphAt glyphs p.2) := by
  rw [adjacentClustersStep_eq] at h
  split at h
  · injection h with h'
    rw [← h']
    split
    · exact Or.inl rfl
    · exact Or.inr rfl
  · exact absurd h (by simp)

theorem marksStep_tested {isect : Seg → Seg → List Point} {glyphs : List Glyph}
    {p : Nat × Nat} {r : List Collision}
    (h : marksStep isect glyphs p = StepRes.tested r) :
    r = find_overlaps isect (glyphAt glyphs p.1) (glyphAt glyphs p.2) := by
  unfold marksStep at h
  split at h
  · injection h with h'
    exact h'.symm
  · exact absurd h (by simp)

theorem mem_of_mem_area_filter {iA : Path → Path → List Rat} {t : Rat}
    {ov : List Collision} {c : Collision} (h : c ∈ area_filter iA t ov) : c ∈ ov := by
  unfold area_filter at h
  rcases List.mem_flatMap.mp h with ⟨i1, h1, hm⟩
  rcases List.mem_filterMap.mp hm with ⟨ia, _, hsome⟩
  split at hsome
  · injection hsome with h'
    rw [← h']
    exact h1
  · exact absurd hsome (by simp)

/-- `cursiveAreaStep` with its `let`s expanded (definitional). -/
theorem cursiveAreaStep_eq (isect : Seg → Seg → List Point)
    (iA : Path → Path → List Rat) (cfg : EngineConfig) (glyphs : List Glyph)
    (p : Nat × Nat) :
    cursiveAreaStep isect iA cfg glyphs p =
      if cfg.cursiveOn ∧ ((glyphAt glyphs p.1).paths.any (fun x => x.hasAnchor) ∨
          (glyphAt glyphs p.1).paths.any (fun x => x.hasAnchor)) then
        StepRes.tested (cursive_filter
          (find_overlaps isect (glyphAt glyphs p.1) (glyphAt glyphs p.2)))
      else if cfg.areaIn then
        if (glyphAt glyphs p.1).category = "base" ∧
            (glyphAt glyphs p.2).category = "base" ∧ ¬cfg.bases then StepRes.skip
        else StepRes.tested (area_filter iA cfg.areaVal
          (find_overlaps isect (glyphAt glyphs p.1) (glyphAt glyphs p.2)))
      else StepRes.skip := rfl

theorem cursiveAreaStep_tested {isect : Seg → Seg → List Point}
    {iA : Path → Path → List Rat} {cfg : EngineConfig} {glyphs : List Glyph}
    {p : Nat × Nat} {r : List Collision}
    (h : cursiveAreaStep isect iA cfg glyphs p = StepRes.tested r) :
    ∀ c ∈ r, c ∈ find_overlaps isect (glyphAt glyphs p.1) (glyphAt glyphs p.2) := by
  rw [cursiveAreaStep_eq] at h
  split at h
  · injection h with h'
    intro c hc
    rw [← h'] at hc
    exact List.mem_of_mem_filter hc
  · split at h
    · split at h
      · exact absurd h (by simp)
      · injection h with h'
        intro c hc
        rw [← h'] at hc
        exact mem_of_mem_area_filter hc
    · exact absurd h (by simp)

/-! ## Each rule loop returns the overlaps of a single pair -/

theorem farawayBlock_cases (isect : Seg → Seg → List Point) (cfg : EngineConfig)
    (glyphs : List Glyph) :
    (farawayBlock isect cfg glyphs).1 = [] ∨
      ∃ i j, i < glyphs.length ∧ j < glyphs.length ∧
        ∀ c ∈ (farawayBlock isect cfg glyphs).1,
          c ∈ find_overlaps isect (glyphAt glyphs i) (glyphAt glyphs j) := by
  have h0 : farawayBlock isect cfg glyphs =
      scanBlock (farawayStep isect cfg glyphs) (farawayPairs glyphs) := rfl
  rw [h0]
  rcases scanBlock_fst_cases (farawayStep isect cfg glyphs) (farawayPairs glyphs) with
    h | ⟨p, hp, hs, _⟩
  · exact Or.inl h
  · right
    obtain ⟨i, j⟩ := p
    have hb := mem_farawayPairs.mp hp
    have hr := farawayStep_tested hs
    exact ⟨i, j, hb.1, hb.2.2, fun c hc => by rw [← hr]; exact hc⟩

theorem adjacentClustersBlock_cases (isect : Seg → Seg → List Point)
    (cfg : EngineConfig) (glyphs : List Glyph) :
    (adjacentClustersBlock isect cfg glyphs).1 = [] ∨
      ∃ i j, i < glyphs.length ∧ j < glyphs.length ∧
        ∀ c ∈ (adjacentClustersBlock isect cfg glyphs).1,
          c ∈ find_overlaps isect (glyphAt glyphs i) (glyphAt glyphs j) := by
  have h0 : adjacentClustersBlock isect cfg glyphs =
      scanBlock (adjacentClustersStep isect cfg glyphs (_get_sequential_cluster_ids glyphs))
        (allPairs glyphs.length) := rfl
  rw [h0]
  rcases scanBlock_fst_cases
      (adjacentClustersStep isect cfg glyphs (_get_sequential_cluster_ids glyphs))
      (allPairs glyphs.length) with h | ⟨p, hp, hs, hne⟩
  · exact Or.inl h
  · right
    obtain ⟨i, j⟩ := p
    have hb := mem_allPairs.mp hp
    rcases adjacentClustersStep_tested hs with h1 | h1
    · exact absurd h1 hne
    · exact ⟨i, j, by omega, hb.2, fun c hc => by rw [← h1]; exact hc⟩

theorem marksBlock_cases (isect : Seg → Seg → List Point) (glyphs : List Glyph) :
    (marksBlock isect glyphs).1 = [] ∨
      ∃ i j, i < glyphs.length ∧ j < glyphs.length ∧
        ∀ c ∈ (marksBlock isect glyphs).1,
          c ∈ find_overlaps isect (glyphAt glyphs i) (glyphAt glyphs j) := by
  have h0 : marksBlock isect glyphs =
      scanBlock (marksStep isect glyphs) (marksPairs glyphs.length) := rfl
  rw [h0]
  rcases scanBlock_fst_cases (marksStep isect glyphs) (marksPairs glyphs.length) with
    h | ⟨p, hp, hs, _⟩
  · exact Or.inl h
  · right
    obtain ⟨i, j⟩ := p
    have hb := mem_marksPairs.mp hp
    have hr := marksStep_tested hs
    exact ⟨i, j, by omega, hb.2.2, fun c hc => by rw [← hr]; exact hc⟩

set_option maxHeartbeats 1000000 in
theorem cursiveAreaBlock_cases (isect : Seg → Seg → List Point)
    (iA : Path → Path → List Rat) (cfg : EngineConfig) (glyphs : List Glyph) :
    (cursiveAreaBlock isect iA cfg glyphs).1 = [] ∨
      ∃ i j, i < glyphs.length ∧ j < glyphs.length ∧
        ∀ c ∈ (cursiveAreaBlock isect iA cfg glyphs).1,
          c ∈ find_overlaps isect (glyphAt glyphs i) (glyphAt glyphs j) := by
  have h0 : cursiveAreaBlock isect iA cfg glyphs =
      scanBlock (cursiveAreaStep isect iA cfg glyphs) (adjacentOnePairs glyphs.length) := rfl
  rw [h0]
  rcases scanBlock_fst_cases (cursiveAreaStep isect iA cfg glyphs)
      (adjacentOnePairs glyphs.length) with h | ⟨p, hp, hs, _⟩
  · exact Or.inl h
  · right
    rcases mem_adjacentOnePairs.mp hp with ⟨i, hi, rfl⟩
    refine ⟨i, i + 1, by omega, hi, ?_⟩
    exact cursiveAreaStep_tested hs

set_option maxHeartbeats 1000000 in
/-- `has_collisions` as the early-return chain of the four rule loops
(definitional). -/
theorem has_collisions_eq (isect : Seg → Seg → List Point)
    (iA : Path → Path → List Rat) (rules : Rules) (dir : String)
    (gin : List Glyph) :
    has_collisions isect iA rules dir gin =
      (chainBlocks
        (if (read_rules rules).faraway then
          farawayBlock isect (read_rules rules) (orient dir gin) else ([], []))
        (chainBlocks
          (if (read_rules rules).adjacent_clusters then
            adjacentClustersBlock isect (read_rules rules) (orient dir gin) else ([], []))
          (chainBlocks
            (if (read_rules rules).marks then
              marksBlock isect (orient dir gin) else ([], []))
            (if (read_rules rules).cursiveIn || (read_rules rules).areaIn then
              cursiveAreaBlock isect iA (read_rules rules) (orient dir gin)
            else ([], []))))).1 := rfl

/-! ## Claim theorems -/

set_option maxHeartbeats 1000000 in
/-- C1 (amended): whenever `has_collisions` returns a non-empty list, that
list is drawn from a single invocation of `find_overlaps` on one glyph
pair of the oriented run — the engine stops at the first pair found to
collide rather than accumulating collisions across all pairs. -/
theorem has_collisions_single_pair_source (isect : Seg → Seg → List Point)
    (iA : Path → Path → List Rat) (rules : Rules) (dir : String)
    (gin : List Glyph) :
    has_collisions isect iA rules dir gin = [] ∨
      ∃ a ∈ orient dir gin, ∃ b ∈ orient dir gin,
        ∀ c ∈ has_collisions isect iA rules dir gin, c ∈ find_overlaps isect a b := by
  rw [has_collisions_eq]
  set glyphs := orient dir gin with hgl
  set cfg := read_rules rules with hcfg
  have finish :
      ∀ blk : List Collision × List (Nat × Nat),
        (blk.1 = [] ∨ ∃ i j, i < glyphs.length ∧ j < glyphs.length ∧
          ∀ c ∈ blk.1, c ∈ find_overlaps isect (glyphAt glyphs i) (glyphAt glyphs j)) →
        (blk.1 = [] ∨ ∃ a ∈ glyphs, ∃ b ∈ glyphs,
          ∀ c ∈ blk.1, c ∈ find_overlaps isect a b) := by
    rintro blk (h | ⟨i, j, hi, hj, hsub⟩)
    · exact Or.inl h
    · exact Or.inr ⟨glyphAt glyphs i, glyphAt_mem hi, glyphAt glyphs j, glyphAt_mem hj, hsub⟩
  rcases chainBlocks_fst_cases
      (if cfg.faraway then farawayBlock isect cfg glyphs else ([], []))
      (chainBlocks
        (if cfg.adjacent_clusters then adjacentClustersBlock isect cfg glyphs else ([], []))
        (chainBlocks (if cfg.marks then marksBlock isect glyphs else ([], []))
          (if cfg.cursiveIn || cfg.areaIn then
            cursiveAreaBlock isect iA cfg glyphs else ([], [])))) with h1 | h1
  · rw [h1]
    split
    · exact finish _ (farawayBlock_cases isect cfg glyphs)
    · exact Or.inl rfl
  · rw [h1]
    rcases chainBlocks_fst_cases
        (if cfg.adjacent_clusters then adjacentClustersBlock isect cfg glyphs else ([], []))
        (chainBlocks (if cfg.marks then marksBlock isect glyphs else ([], []))
          (if cfg.cursiveIn || cfg.areaIn then
            cursiveAreaBlock isect iA cfg glyphs else ([], []))) with h2 | h2
    · rw [h2]
      split
      · exact finish _ (adjacentClustersBlock_cases isect cfg glyphs)
      · exact Or.inl rfl
    · rw [h2]
      rcases chainBlocks_fst_cases
          (if cfg.marks then marksBlock isect glyphs else ([], []))
          (if cfg.cursiveIn || cfg.areaIn then
            cursiveAreaBlock isect iA cfg glyphs else ([], [])) with h3 | h3
      · rw [h3]
        split
        · exact finish _ (marksBlock_cases isect glyphs)
        · exact Or.inl rfl
      · rw [h3]
        split
        · exact finish _ (cursiveAreaBlock_cases isect iA cfg glyphs)
        · exact Or.inl rfl

/-- C1 (counterexample): a run of four marks under the `marks` rule in
which both pairs (1,2) and (2,3) collide: the engine returns exactly the
collisions of the first colliding pair, and the second pair's collision —
reportable under the claim — is absent from the output. -/
theorem has_collisions_misses_second_colliding_pair :
    has_collisions isectC1 iaNone [("marks", RuleValue.b true)] "LTR" runC1 =
      find_overlaps isectC1 (markC1 1) (markC1 2) ∧
    find_overlaps isectC1 (markC1 2) (markC1 3) ≠ [] ∧
    ∀ c ∈ find_overlaps isectC1 (markC1 2) (markC1 3),
      c ∉ has_collisions isectC1 iaNone [("marks", RuleValue.b true)] "LTR" runC1 := by
  decide

/-- C2 (code_bug evaluation): with the rules dictionary containing only
`bases: True` (the default rule set of the repository's own tests), the
engine runs no rule loop at all and returns no collisions, even for a
pair of overlapping non-mark glyphs. -/
theorem bases_only_rules_detect_nothing :
    has_collisions isectC2 iaNone [("bases", RuleValue.b true)] "LTR"
      [baseC2 1, baseC2 2] = [] ∧
    find_overlaps isectC2 (baseC2 1) (baseC2 2) ≠ [] ∧
    (baseC2 1).category ≠ "mark" ∧ (baseC2 2).category ≠ "mark" := by
  decide

/-- C3 (code_bug evaluation): under the `marks` rule, a pair of
overlapping marks at indices 0 and 1 is never tested (the source's loop
starts at index 1), so nothing is reported; prepending a base so that the
same two marks sit at indices 1 and 2 makes the pair tested and the
collision reported. -/
theorem marks_rule_skips_first_glyph :
    has_collisions isectC3 iaNone [("marks", RuleValue.b true)] "LTR"
      [markC3 1, markC3 2] = [] ∧
    find_overlaps isectC3 (markC3 1) (markC3 2) ≠ [] ∧
    has_collisions isectC3 iaNone [("marks", RuleValue.b true)] "LTR"
      [baseC3, markC3 1, markC3 2] ≠ [] := by
  decide

/-- C4 (counterexample): glyphs A and C both carry anchors, their
outlines overlap (in a collision whose two paths are both anchored), and
the glyph B strictly between them is a non-mark — yet under the `cursive`
rule the engine reports nothing, because it only ever tests adjacent
pairs and has no intervening-base logic. -/
theorem cursive_intervening_base_not_reported :
    has_collisions isectC4 iaNone [("cursive", RuleValue.b true)] "LTR"
      [gA4, gB4, gC4] = [] ∧
    gA4.paths.any (fun x => x.hasAnchor) = true ∧
    gC4.paths.any (fun x => x.hasAnchor) = true ∧
    gB4.category ≠ "mark" ∧
    find_overlaps isectC4 gA4 gC4 ≠ [] := by
  decide

/-- C6 (counterexample): two overlapping glyphs whose shaping-supplied
cluster ids are 0 and 5 — a difference of 5, not less than 2 — are
nevertheless selected and reported under the `adjacent_clusters` rule,
because the rule compares sequential (renumbered) cluster ids. -/
theorem adjacent_clusters_raw_ids_not_selection :
    has_collisions isectC6 iaNone [("adjacent_clusters", RuleValue.b true)] "LTR"
      [gC6a, gC6b] ≠ [] ∧
    gC6a.cluster + 2 ≤ gC6b.cluster := by
  decide

/-- C8 (counterexample): a path pair with two intersecting segment pairs:
the returned collision carries the point of the last intersecting segment
pair in traversal order, not the first intersection point found. -/
theorem find_overlaps_point_not_first_found :
    (find_overlaps isectC8 gC8a gC8b).map (fun c => c.point) = [((5 : Int), (5 : Int))] ∧
    first_found_point isectC8 pC8a pC8b = some ((3 : Int), (3 : Int)) ∧
    (((3 : Int), (3 : Int)) : Point) ≠ (((5 : Int), (5 : Int)) : Point) := by
  decide

/-- C10: `get_rules` returns exactly the entries of the supplied rules
mapping whose keys are among the known rules (faraway, marks,
adjacent_clusters, cursive, area); in particular a `bases` entry is never
echoed back. -/
theorem get_rules_returns_exactly_known_rules (rules : Rules) :
    (∀ kv, kv ∈ get_rules rules ↔ kv ∈ rules ∧ kv.1 ∈ _KNOWN_RULES) ∧
    ∀ v, ("bases", v) ∉ get_rules rules := by
  have hmem : ∀ kv : String × RuleValue,
      kv ∈ get_rules rules ↔ kv ∈ rules ∧ kv.1 ∈ _KNOWN_RULES := by
    intro kv
    unfold get_rules
    rw [List.mem_filter]
    constructor
    · rintro ⟨h1, h2⟩
      exact ⟨h1, List.elem_iff.mp h2⟩
    · rintro ⟨h1, h2⟩
      exact ⟨h1, List.elem_iff.mpr h2⟩
  refine ⟨hmem, ?_⟩
  intro v hv
  have hb : ("bases" : String) ∉ _KNOWN_RULES := by decide
  exact absurd ((hmem _).mp hv).2 hb

/-- C5: when the first glyph of a pair is a base, the faraway loop scans
the pair `(i, j)` exactly when `j` lies strictly beyond the adjacency
unit of `i` (the base, its immediately following marks, and the very next
glyph); pairs within the adjacency unit are not tested by this rule. -/
theorem faraway_tests_iff_beyond_adjacency_unit (glyphs : List Glyph) (i j : Nat)
    (hbase : (glyphAt glyphs i).category = "base") :
    (i, j) ∈ farawayPairs glyphs ↔
      (i < j ∧ j < glyphs.length ∧ j ∉ adjacencyUnit glyphs i) := by
  have hlen : i < glyphs.length := by
    by_contra hni
    have hd : glyphAt glyphs i = ⟨"", "", 0, [], ⟨0, 0, 0, 0⟩⟩ :=
      List.getD_eq_default _ _ (by omega)
    rw [hd] at hbase
    exact absurd hbase (by decide)
  have hna : nonAdjacentIndex glyphs i = skipMarks glyphs (i + 1) + 1 := by
    unfold nonAdjacentIndex
    rw [if_pos hbase]
  have hsk : skipMarks glyphs (i + 1) =
      (i + 1) + ((glyphs.drop (i + 1)).takeWhile (fun g => g.category = "mark")).length := rfl
  set attached := ((glyphs.drop (i + 1)).takeWhile (fun g => g.category = "mark")).length
    with hatt
  have hunit : j ∈ adjacencyUnit glyphs i ↔
      (j = i ∨ (i + 1 ≤ j ∧ j < i + 1 + attached) ∨
        (i + 1 + attached < glyphs.length ∧ j = i + 1 + attached)) := by
    unfold adjacencyUnit
    rw [← hatt]
    rw [List.mem_append, List.mem_cons, List.mem_range'_1]
    constructor
    · rintro ((h | h) | h)
      · exact Or.inl h
      · exact Or.inr (Or.inl h)
      · split at h
        · rcases List.mem_singleton.mp h with rfl
          exact Or.inr (Or.inr ⟨by assumption, rfl⟩)
        · exact absurd h (List.not_mem_nil _)
    · rintro (h | h | ⟨h1, h2⟩)
      · exact Or.inl (Or.inl h)
      · exact Or.inl (Or.inr h)
      · right
        rw [if_pos h1]
        exact List.mem_singleton.mpr h2
  rw [mem_farawayPairs, hna, hsk, hunit]
  constructor
  · rintro ⟨_, h2, h3⟩
    refine ⟨by omega, h3, ?_⟩
    rintro (h | h | h) <;> omega
  · rintro ⟨h1, h2, h3⟩
    refine ⟨hlen, ?_, h2⟩
    by_contra hlt
    apply h3
    by_cases hj : j < i + 1 + attached
    · exact Or.inr (Or.inl ⟨by omega, hj⟩)
    · exact Or.inr (Or.inr ⟨by omega, by omega⟩)

/-- C5 witness: in the run base–mark–base–base, the pair (0, 3) is
scanned by the faraway loop: 3 is strictly beyond the adjacency unit
{0 (base), 1 (its mark), 2 (the very next glyph)}. -/
theorem faraway_tests_iff_beyond_adjacency_unit_witness :
    (0, 3) ∈ farawayPairs runC5 :=
  (faraway_tests_iff_beyond_adjacency_unit runC5 0 3 (by decide)).mpr (by decide)

/-- C6 (amended): in the adjacent_clusters loop (in the absence of any
collision, so that the loop runs to completion), `find_overlaps` is
invoked on exactly the pairs `i < j` whose sequential cluster ids differ
by less than 2 — regardless of the `bases` setting, which discards
results only after the invocation. -/
theorem adjacent_clusters_tested_iff_sequential_ids (isect : Seg → Seg → List Point)
    (cfg : EngineConfig) (glyphs : List Glyph) (i j : Nat)
    (hfo : ∀ a b : Glyph, find_overlaps isect a b = []) :
    (i, j) ∈ (adjacentClustersBlock isect cfg glyphs).2 ↔
      (i < j ∧ j < glyphs.length ∧
        (((_get_sequential_cluster_ids glyphs).getD i 0 : Int) -
          ((_get_sequential_cluster_ids glyphs).getD j 0 : Int)).natAbs < 2) := by
  have h0 : adjacentClustersBlock isect cfg glyphs =
      scanBlock (adjacentClustersStep isect cfg glyphs (_get_sequential_cluster_ids glyphs))
        (allPairs glyphs.length) := rfl
  set scis := _get_sequential_cluster_ids glyphs with hscis
  have hall : ∀ p ∈ allPairs glyphs.length, ∀ r,
      adjacentClustersStep isect cfg glyphs scis p = StepRes.tested r → r = [] := by
    intro p _ r hr
    rcases adjacentClustersStep_tested hr with h | h
    · exact h
    · exact h.trans (hfo _ _)
  rw [h0, scanBlock_snd_of_all_empty _ _ hall, List.mem_filter, mem_allPairs]
  have hstep : (adjacentClustersStep isect cfg glyphs scis (i, j)).isTested = true ↔
      (((scis.getD i 0 : Int) - (scis.getD j 0 : Int)).natAbs < 2) := by
    rw [adjacentClustersStep_eq]
    dsimp only
    by_cases hc : ((scis.getD i 0 : Int) - (scis.getD j 0 : Int) = -1 ∨
        (scis.getD i 0 : Int) - (scis.getD j 0 : Int) = 0 ∨
        (scis.getD i 0 : Int) - (scis.getD j 0 : Int) = 1)
    · rw [if_pos hc]
      constructor
      · intro _
        omega
      · intro _
        rfl
    · rw [if_neg hc]
      constructor
      · intro hfalse
        exact absurd hfalse (by simp [StepRes.isTested])
      · intro hlt
        have hd : ((scis.getD i 0 : Int) - (scis.getD j 0 : Int) = -1 ∨
            (scis.getD i 0 : Int) - (scis.getD j 0 : Int) = 0 ∨
            (scis.getD i 0 : Int) - (scis.getD j 0 : Int) = 1) := by omega
        exact absurd hd hc
  rw [hstep]
  constructor
  · rintro ⟨⟨h1, h2⟩, h3⟩
    exact ⟨h1, h2, h3⟩
  · rintro ⟨h1, h2, h3⟩
    exact ⟨⟨h1, h2⟩, h3⟩

/-- C6 witness: with clusters 0, 0, 7 the sequential ids are 1, 1, 2, so
the pair (0, 2) — raw cluster distance 7 — is invoked by the loop. -/
theorem adjacent_clusters_tested_iff_sequential_ids_witness :
    (0, 2) ∈ (adjacentClustersBlock isectNil
      (read_rules [("adjacent_clusters", RuleValue.b true)]) runC6w).2 :=
  (adjacent_clusters_tested_iff_sequential_ids isectNil _ runC6w 0 2
    find_overlaps_isectNil).mpr (by decide)

/-- C7: the area reportability filter is antitone in the threshold: with
`t1 ≤ t2` (and the paths' own areas nonnegative, as geometric areas are),
every collision reported at threshold `t2` for a fixed overlapping pair
is also reported at threshold `t1` — a collision is reported when some
flattened intersection region's area exceeds the threshold times either
path's own area. -/
theorem area_filter_threshold_monotone (iA : Path → Path → List Rat)
    (t1 t2 : Rat) (ov : List Collision) (hle : t1 ≤ t2)
    (hA : ∀ c ∈ ov, 0 ≤ c.path1.area ∧ 0 ≤ c.path2.area) :
    ∀ c ∈ area_filter iA t2 ov, c ∈ area_filter iA t1 ov := by
  intro c hc
  unfold area_filter at hc ⊢
  rcases List.mem_flatMap.mp hc with ⟨i1, h1, hm⟩
  rcases List.mem_filterMap.mp hm with ⟨ia, hia, hsome⟩
  split at hsome
  case isTrue hcond =>
    injection hsome with he
    subst he
    refine List.mem_flatMap.mpr ⟨i1, h1, List.mem_filterMap.mpr ⟨ia, hia, ?_⟩⟩
    have hgoal : ia > i1.path1.area * t1 ∨ ia > i1.path2.area * t1 := by
      rcases hcond with h | h
      · exact Or.inl (lt_of_le_of_lt (mul_le_mul_of_nonneg_left hle (hA i1 h1).1) h)
      · exact Or.inr (lt_of_le_of_lt (mul_le_mul_of_nonneg_left hle (hA i1 h1).2) h)
    rw [if_pos hgoal]
  case isFalse => exact absurd hsome (by simp)

/-- C7 witness: a collision whose single intersection region (area 3)
exceeds twice either path's area (1) is reported at threshold 2, and by
monotonicity also at the lower threshold 1. -/
theorem area_filter_threshold_monotone_witness :
    collC7 ∈ area_filter iaC7 (1 : Rat) [collC7] :=
  area_filter_threshold_monotone iaC7 (1 : Rat) (2 : Rat) [collC7]
    (by decide) (by decide) collC7
    (List.mem_flatMap.mpr ⟨collC7, List.mem_singleton.mpr rfl,
      List.mem_filterMap.mpr ⟨3, List.mem_singleton.mpr rfl, by
        rw [if_pos]
        exact Or.inl (by
          rw [show collC7.path1.area = (1 : Rat) from rfl, one_mul]
          decide)⟩⟩)

/-- Appending a fresh key to the rules dictionary does not change any
lookup of a different key. -/
theorem rget_append_fresh (rules : Rules) (k : String) (v : RuleValue)
    (key : String) (h : key ≠ k) :
    rget (rules ++ [(k, v)]) key = rget rules key := by
  induction rules with
  | nil =>
    unfold rget
    simp only [List.nil_append]
    rw [List.find?_cons_of_neg _ (by simp; exact fun hh => h hh.symm)]
  | cons a rules ih =>
    unfold rget at ih ⊢
    simp only [List.cons_append]
    by_cases ha : a.1 = key
    · rw [List.find?_cons_of_pos _ (by simpa using ha),
        List.find?_cons_of_pos _ (by simpa using ha)]
    · rw [List.find?_cons_of_neg _ (by simpa using ha),
        List.find?_cons_of_neg _ (by simpa using ha)]
      exact ih

/-- The engine's view of the rules dictionary is unchanged by an entry
with an unrecognized key. -/
theorem read_rules_append_fresh (rules : Rules) (k : String) (v : RuleValue)
    (h : k ∉ (["faraway", "marks", "bases", "adjacent_clusters", "cursive", "area"] :
      List String)) :
    read_rules (rules ++ [(k, v)]) = read_rules rules := by
  have hne : ∀ s : String,
      s ∈ (["faraway", "marks", "bases", "adjacent_clusters", "cursive", "area"] :
        List String) → s ≠ k :=
    fun s hs he => h (he ▸ hs)
  have h1 := rget_append_fresh rules k v "faraway" (hne "faraway" (by decide))
  have h2 := rget_append_fresh rules k v "marks" (hne "marks" (by decide))
  have h3 := rget_append_fresh rules k v "bases" (hne "bases" (by decide))
  have h4 := rget_append_fresh rules k v "adjacent_clusters" (hne "adjacent_clusters" (by decide))
  have h5 := rget_append_fresh rules k v "cursive" (hne "cursive" (by decide))
  have h6 := rget_append_fresh rules k v "area" (hne "area" (by decide))
  simp only [read_rules, rcontains]
  rw [h1, h2, h3, h4, h5, h6]

/-- C9: adding an entry with a key the engine does not recognize (not one
of faraway, marks, bases, adjacent_clusters, cursive, area) to the rules
mapping leaves the result of `has_collisions` unchanged. -/
theorem has_collisions_ignores_unknown_rule_keys (isect : Seg → Seg → List Point)
    (iA : Path → Path → List Rat) (rules : Rules) (dir : String)
    (gin : List Glyph) (k : String) (v : RuleValue)
    (h : k ∉ (["faraway", "marks", "bases", "adjacent_clusters", "cursive", "area"] :
      List String)) :
    has_collisions isect iA (rules ++ [(k, v)]) dir gin =
      has_collisions isect iA rules dir gin := by
  rw [has_collisions_eq, has_collisions_eq, read_rules_append_fresh rules k v h]

/-- C9 witness: adding an entry under the unknown key "frob" leaves the
detection result unchanged on a concrete run. -/
theorem has_collisions_ignores_unknown_rule_keys_witness :
    has_collisions isectNil iaNone
      ([("marks", RuleValue.b true)] ++ [("frob", RuleValue.b true)]) "LTR" [] =
    has_collisions isectNil iaNone [("marks", RuleValue.b true)] "LTR" [] :=
  has_collisions_ignores_unknown_rule_keys isectNil iaNone
    [("marks", RuleValue.b true)] "LTR" [] "frob" (RuleValue.b true) (by decide)

/-- If the cursive rule is truthy then the key is present. -/
theorem cursiveIn_of_cursiveOn {rules : Rules}
    (h : (read_rules rules).cursiveOn = true) :
    (read_rules rules).cursiveIn = true := by
  have h1 : (read_rules rules).cursiveOn =
      (match rget rules "cursive" with
        | some v => truthy v
        | none => false) := rfl
  have h2 : (read_rules rules).cursiveIn = (rget rules "cursive").isSome := rfl
  rw [h2]
  cases hr : rget rules "cursive" with
  | none =>
    rw [h1, hr] at h
    exact absurd h (by simp)
  | some v => rfl

/-- Collisions surviving the cursive filter have exactly one anchored
path. -/
theorem anchors_differ_of_mem_cursive_filter {ov : List Collision} {c : Collision}
    (h : c ∈ cursive_filter ov) : c.path1.hasAnchor ≠ c.path2.hasAnchor := by
  have h2 := (List.mem_filter.mp h).2
  simp only [decide_eq_true_eq] at h2
  rcases h2 with ⟨ha, hb⟩ | ⟨ha, hb⟩ <;> simp_all

set_option maxHeartbeats 1000000 in
/-- C4 (amended): with cursive the only active rule, a non-empty result
comes from a single adjacent pair `(i, i+1)` of the oriented run whose
first glyph has an anchored path, and equals the cursive filter (keep a
collision iff exactly one of its paths has an anchor) of that pair's raw
overlaps; in particular every reported collision has exactly one
anchored path. -/
theorem cursive_rule_adjacent_xor_anchor (isect : Seg → Seg → List Point)
    (iA : Path → Path → List Rat) (rules : Rules) (dir : String)
    (gin : List Glyph)
    (hc : (read_rules rules).cursiveOn = true)
    (hf : (read_rules rules).faraway = false)
    (hac : (read_rules rules).adjacent_clusters = false)
    (hm : (read_rules rules).marks = false)
    (ha : (read_rules rules).areaIn = false) :
    has_collisions isect iA rules dir gin = [] ∨
      ∃ i, i + 1 < (orient dir gin).length ∧
        (glyphAt (orient dir gin) i).paths.any (fun x => x.hasAnchor) = true ∧
        has_collisions isect iA rules dir gin =
          cursive_filter (find_overlaps isect (glyphAt (orient dir gin) i)
            (glyphAt (orient dir gin) (i + 1))) ∧
        ∀ c ∈ has_collisions isect iA rules dir gin,
          c.path1.hasAnchor ≠ c.path2.hasAnchor := by
  have hin : (read_rules rules).cursiveIn = true := cursiveIn_of_cursiveOn hc
  rw [has_collisions_eq]
  set glyphs := orient dir gin with hgl
  set cfg := read_rules rules with hcfg
  simp only [hf, hac, hm, hin, ha, Bool.false_eq_true, if_false, Bool.true_or, if_true]
  have hch : ∀ b : List Collision × List (Nat × Nat),
      chainBlocks (([] : List Collision), ([] : List (Nat × Nat))) b = b := fun b => rfl
  rw [hch, hch, hch]
  have h0 : cursiveAreaBlock isect iA cfg glyphs =
      scanBlock (cursiveAreaStep isect iA cfg glyphs) (adjacentOnePairs glyphs.length) := rfl
  rw [h0]
  rcases scanBlock_fst_cases (cursiveAreaStep isect iA cfg glyphs)
      (adjacentOnePairs glyphs.length) with h | ⟨p, hp, hs, _⟩
  · exact Or.inl h
  · right
    rcases mem_adjacentOnePairs.mp hp with ⟨i, hi, rfl⟩
    rw [cursiveAreaStep_eq] at hs
    split at hs
    case isTrue hcond =>
      injection hs with hres
      refine ⟨i, hi, ?_, hres.symm, ?_⟩
      · rcases hcond.2 with h | h <;> exact h
      · intro c hcmem
        rw [← hres] at hcmem
        exact anchors_differ_of_mem_cursive_filter hcmem
    case isFalse =>
      split at hs
      case isTrue harea =>
        rw [ha] at harea
        exact absurd harea (by simp)
      case isFalse => exact absurd hs (by simp)

/-- C4 witness: two adjacent glyphs, the first with an anchored path, the
second without; their single collision (one anchored path, one not)
survives the cursive filter and is reported. -/
theorem cursive_rule_adjacent_xor_anchor_witness :
    has_collisions isectC4w iaNone [("cursive", RuleValue.b true)] "LTR" [gAw, gBw] = [] ∨
      ∃ i, i + 1 < (orient "LTR" [gAw, gBw]).length ∧
        (glyphAt (orient "LTR" [gAw, gBw]) i).paths.any (fun x => x.hasAnchor) = true ∧
        has_collisions isectC4w iaNone [("cursive", RuleValue.b true)] "LTR" [gAw, gBw] =
          cursive_filter (find_overlaps isectC4w (glyphAt (orient "LTR" [gAw, gBw]) i)
            (glyphAt (orient "LTR" [gAw, gBw]) (i + 1))) ∧
        ∀ c ∈ has_collisions isectC4w iaNone [("cursive", RuleValue.b true)] "LTR" [gAw, gBw],
          c.path1.hasAnchor ≠ c.path2.hasAnchor :=
  cursive_rule_adjacent_xor_anchor isectC4w iaNone [("cursive", RuleValue.b true)]
    "LTR" [gAw, gBw] (by decide) (by decide) (by decide) (by decide) (by decide)

/-! ## The dict-overwrite analysis of `find_overlaps` -/

theorem dictInsert_of_not_mem {κ ν : Type} [DecidableEq κ] {k : κ} (v : ν) :
    ∀ {d : List (κ × ν)}, k ∉ dkeys d → dictInsert k v d = d ++ [(k, v)]
  | [], _ => rfl
  | (k', v') :: rest, h => by
    have hne : k' ≠ k := by
      intro he
      exact h (by simp [dkeys, he])
    have hrest : k ∉ dkeys rest := by
      intro hm
      exact h (by simp [dkeys] at hm ⊢; exact Or.inr hm)
    unfold dictInsert
    rw [if_neg hne, dictInsert_of_not_mem v hrest]
    rfl

theorem dictInsert_dictInsert {κ ν : Type} [DecidableEq κ] (k : κ) (v v' : ν) :
    ∀ d : List (κ × ν), dictInsert k v' (dictInsert k v d) = dictInsert k v' d
  | [] => by simp [dictInsert]
  | (a, b) :: rest => by
    by_cases ha : a = k
    · simp [dictInsert, ha]
    · simp only [dictInsert, if_neg ha]
      rw [dictInsert_dictInsert k v v' rest]

theorem segPairStep_eq_firstPointColl (isect : Seg → Seg → List Point)
    (g1 g2 : Glyph) (pp : Path × Path) (d : List ((Path × Path) × Collision))
    (sp : Seg × Seg) :
    segPairStep isect g1 g2 pp d sp =
      (firstPointColl isect g1 g2 pp sp).elim d (fun c => dictInsert pp c d) := by
  unfold segPairStep firstPointColl
  cases isect sp.1 sp.2 <;> rfl

theorem lastColl_of_filter_ne_nil (isect : Seg → Seg → List Point)
    (g1 g2 : Glyph) (pp : Path × Path) (sps : List (Seg × Seg))
    (h : sps.filter (fun sp => !(isect sp.1 sp.2).isEmpty) ≠ []) :
    ∃ c, lastColl isect g1 g2 pp sps = some c := by
  unfold lastColl
  obtain ⟨sp', hsp'⟩ :
      ∃ sp', (sps.filter (fun sp => !(isect sp.1 sp.2).isEmpty)).getLast? = some sp' := by
    cases hfl : (sps.filter (fun sp => !(isect sp.1 sp.2).isEmpty)).getLast? with
    | none => exact absurd (List.getLast?_eq_none_iff.mp hfl) h
    | some x => exact ⟨x, rfl⟩
  rw [hsp', Option.some_bind]
  have hmem := List.mem_of_mem_getLast? hsp'
  have hpred := (List.mem_filter.mp hmem).2
  unfold firstPointColl
  cases hi : isect sp'.1 sp'.2 with
  | nil =>
    rw [hi] at hpred
    exact absurd hpred (by simp)
  | cons pt tl => exact ⟨_, rfl⟩

theorem foldl_segPairStep (isect : Seg → Seg → List Point) (g1 g2 : Glyph)
    (pp : Path × Path) :
    ∀ (sps : List (Seg × Seg)) (d : List ((Path × Path) × Collision)),
      sps.foldl (segPairStep isect g1 g2 pp) d =
        (lastColl isect g1 g2 pp sps).elim d (fun c => dictInsert pp c d)
  | [], d => rfl
  | sp :: rest, d => by
    rw [List.foldl_cons, segPairStep_eq_firstPointColl]
    cases hi : isect sp.1 sp.2 with
    | nil =>
      have hfp : firstPointColl isect g1 g2 pp sp = none := by
        unfold firstPointColl
        rw [hi]
      have hlc : lastColl isect g1 g2 pp (sp :: rest) = lastColl isect g1 g2 pp rest := by
        unfold lastColl
        rw [List.filter_cons_of_neg (by simp [hi])]
      rw [hfp, Option.elim_none, hlc]
      exact foldl_segPairStep isect g1 g2 pp rest d
    | cons pt tl =>
      have hfp : firstPointColl isect g1 g2 pp sp =
          some ⟨g1.name, g2.name, pp.1, pp.2, pt⟩ := by
        unfold firstPointColl
        rw [hi]
      have hfil : (sp :: rest).filter (fun q => !(isect q.1 q.2).isEmpty) =
          sp :: rest.filter (fun q => !(isect q.1 q.2).isEmpty) :=
        List.filter_cons_of_pos (by simp [hi])
      rw [hfp, Option.elim_some]
      rw [foldl_segPairStep isect g1 g2 pp rest
        (dictInsert pp ⟨g1.name, g2.name, pp.1, pp.2, pt⟩ d)]
      cases hfr : rest.filter (fun q => !(isect q.1 q.2).isEmpty) with
      | nil =>
        have hlcr : lastColl isect g1 g2 pp rest = none := by
          unfold lastColl
          rw [hfr]
          rfl
        have hlc : lastColl isect g1 g2 pp (sp :: rest) =
            some ⟨g1.name, g2.name, pp.1, pp.2, pt⟩ := by
          unfold lastColl
          rw [hfil, hfr, List.getLast?_singleton, Option.some_bind]
          exact hfp
        rw [hlcr, hlc, Option.elim_none, Option.elim_some]
      | cons q l' =>
        have hne : rest.filter (fun q => !(isect q.1 q.2).isEmpty) ≠ [] := by
          rw [hfr]
          exact List.cons_ne_nil _ _
        obtain ⟨c', hc'⟩ := lastColl_of_filter_ne_nil isect g1 g2 pp rest hne
        have hlc : lastColl isect g1 g2 pp (sp :: rest) = some c' := by
          rw [← hc']
          unfold lastColl
          rw [hfil, hfr, List.getLast?_cons_cons]
        rw [hc', hlc, Option.elim_some, Option.elim_some]
        exact dictInsert_dictInsert pp _ c' d

theorem pathPairStep_eq (isect : Seg → Seg → List Point) (g1 g2 : Glyph)
    (d : List ((Path × Path) × Collision)) (pp : Path × Path) :
    pathPairStep isect g1 g2 d pp =
      (collision_of_pair isect g1 g2 pp).elim d (fun c => dictInsert pp c d) :=
  foldl_segPairStep isect g1 g2 pp _ d

theorem dkeys_append {κ ν : Type} (d1 d2 : List (κ × ν)) :
    dkeys (d1 ++ d2) = dkeys d1 ++ dkeys d2 := List.map_append _ _ _

theorem foldl_pathPairStep (isect : Seg → Seg → List Point) (g1 g2 : Glyph) :
    ∀ (opb : List (Path × Path)) (d : List ((Path × Path) × Collision)),
      opb.Nodup → (∀ pp ∈ opb, pp ∉ dkeys d) →
      opb.foldl (pathPairStep isect g1 g2) d =
        d ++ opb.filterMap
          (fun pp => (collision_of_pair isect g1 g2 pp).map (fun c => (pp, c)))
  | [], d, _, _ => by simp
  | pp :: rest, d, hnd, hfresh => by
    rw [List.foldl_cons, pathPairStep_eq]
    cases hcp : collision_of_pair isect g1 g2 pp with
    | none =>
      rw [Option.elim_none]
      rw [foldl_pathPairStep isect g1 g2 rest d hnd.of_cons
        (fun q hq => hfresh q (List.mem_cons_of_mem _ hq))]
      simp [List.filterMap_cons, hcp]
    | some c =>
      rw [Option.elim_some]
      have hd : dictInsert pp c d = d ++ [(pp, c)] :=
        dictInsert_of_not_mem c (hfresh pp (List.mem_cons_self _ _))
      rw [hd]
      have hfresh' : ∀ q ∈ rest, q ∉ dkeys (d ++ [(pp, c)]) := by
        intro q hq hqin
        rw [dkeys_append] at hqin
        rcases List.mem_append.mp hqin with hL | hR
        · exact hfresh q (List.mem_cons_of_mem _ hq) hL
        · have : q = pp := by simpa [dkeys] using hR
          exact (List.nodup_cons.mp hnd).1 (this ▸ hq)
      rw [foldl_pathPairStep isect g1 g2 rest (d ++ [(pp, c)]) hnd.of_cons hfresh']
      simp [List.filterMap_cons, hcp]

theorem fst_mem_of_mem_bbox_intersections {α β : Type} {fa : α → BBox}
    {fb : β → BBox} {ls : List α} {rs : List β} {pq : α × β}
    (h : pq ∈ bbox_intersections fa fb ls rs) : pq.1 ∈ ls := by
  rcases List.mem_flatMap.mp h with ⟨a, ha, hm⟩
  rcases List.mem_map.mp hm with ⟨b, _, heq⟩
  rw [← heq]
  exact ha

theorem bbox_intersections_nodup {α β : Type} [DecidableEq α] [DecidableEq β]
    (fa : α → BBox) (fb : β → BBox) {ls : List α} {rs : List β}
    (h1 : ls.Nodup) (h2 : rs.Nodup) : (bbox_intersections fa fb ls rs).Nodup := by
  induction ls with
  | nil => exact List.nodup_nil
  | cons a ls ih =>
    have hsplit : bbox_intersections fa fb (a :: ls) rs =
        ((rs.filter (fun b => (fa a).overlaps (fb b))).map (fun b => (a, b))) ++
          bbox_intersections fa fb ls rs := by
      unfold bbox_intersections
      rw [List.flatMap_cons]
    rw [hsplit]
    refine List.Nodup.append ?_ (ih (List.nodup_cons.mp h1).2) ?_
    · refine List.Nodup.map ?_ (h2.filter _)
      intro x y hxy
      exact congrArg Prod.snd hxy
    · intro x hx1 hx2
      rcases List.mem_map.mp hx1 with ⟨b, _, heq⟩
      have hx1a : x.1 = a := by rw [← heq]
      have hx2a : x.1 ∈ ls := fst_mem_of_mem_bbox_intersections hx2
      exact (List.nodup_cons.mp h1).1 (hx1a ▸ hx2a)

theorem map_snd_filterMap_pair {α β : Type} (f : α → Option β) (l : List α) :
    (l.filterMap (fun a => (f a).map (fun c => (a, c)))).map (fun kv => kv.2) =
      l.filterMap f := by
  induction l with
  | nil => rfl
  | cons a l ih => cases hf : f a <;> simp [List.filterMap_cons, hf, ih]

theorem filterMap_keys_sublist {α β : Type} (f : α → Option β) (keyf : β → α)
    (hf : ∀ a c, f a = some c → keyf c = a) :
    ∀ l : List α, ((l.filterMap f).map keyf).Sublist l
  | [] => by simp
  | a :: l => by
    cases hfa : f a with
    | none =>
      simp only [List.filterMap_cons, hfa]
      exact (filterMap_keys_sublist f keyf hf l).cons _
    | some c =>
      simp only [List.filterMap_cons, hfa, List.map_cons, hf a c hfa]
      exact (filterMap_keys_sublist f keyf hf l).cons₂ _

theorem collision_of_pair_key {isect : Seg → Seg → List Point} {g1 g2 : Glyph}
    {pp : Path × Path} {c : Collision}
    (h : collision_of_pair isect g1 g2 pp = some c) : (c.path1, c.path2) = pp := by
  unfold collision_of_pair lastColl at h
  rcases Option.bind_eq_some.mp h with ⟨sp, _, hf⟩
  unfold firstPointColl at hf
  cases hi : isect sp.1 sp.2 with
  | nil =>
    rw [hi] at hf
    exact absurd hf (by simp)
  | cons pt tl =>
    rw [hi] at hf
    injection hf with hf'
    rw [← hf']

/-- C8 (amended): under distinct path objects (as Python guarantees,
paths being distinct objects keyed by identity), `find_overlaps` equals
its declarative description — one `Collision` per overlapping path pair
with an intersecting segment pair, carrying the first intersection point
of the last intersecting segment pair in traversal order — and the
returned collisions have pairwise-distinct path pairs (at most one
`Collision` per path pair, not one per segment pair). -/
theorem find_overlaps_one_per_pair_last_point (isect : Seg → Seg → List Point)
    (g1 g2 : Glyph) (h1 : g1.paths.Nodup) (h2 : g2.paths.Nodup) :
    find_overlaps isect g1 g2 = find_overlaps_spec isect g1 g2 ∧
    ((find_overlaps isect g1 g2).map (fun c => (c.path1, c.path2))).Nodup := by
  have hnd : (bbox_intersections Path.bbox Path.bbox g1.paths g2.paths).Nodup :=
    bbox_intersections_nodup _ _ h1 h2
  have heq : find_overlaps isect g1 g2 = find_overlaps_spec isect g1 g2 := by
    rw [find_overlaps_eq]
    unfold find_overlaps_spec
    split
    · rfl
    · split
      case isTrue he =>
        rw [List.isEmpty_iff.mp he]
        rfl
      case isFalse =>
        rw [foldl_pathPairStep isect g1 g2 _ [] hnd (by intro pp _; simp [dkeys])]
        rw [List.nil_append]
        exact map_snd_filterMap_pair _ _
  refine ⟨heq, ?_⟩
  rw [heq]
  unfold find_overlaps_spec
  split
  · exact List.nodup_nil
  · exact List.Nodup.sublist
      (filterMap_keys_sublist _ _ (fun pp c hc => collision_of_pair_key hc) _) hnd

/-- C8 witness: on the concrete two-segment paths, `find_overlaps` equals
its declarative description and returns pairwise-distinct path pairs. -/
theorem find_overlaps_one_per_pair_last_point_witness :
    find_overlaps isectC8 gC8a gC8b = find_overlaps_spec isectC8 gC8a gC8b ∧
    ((find_overlaps isectC8 gC8a gC8b).map (fun c => (c.path1, c.path2))).Nodup :=
  find_overlaps_one_per_pair_last_point isectC8 gC8a gC8b (by decide) (by decide)

end Collidoscope
